import Mathlib

/-!
Verification of the MFEM assembly/transfer core (`fem/bilinearform.hpp`,
`fem/transfer.cpp`) against its natural-language specification.

Conventions of the shallow embedding:
* machine `double` arithmetic is modelled exactly over `ℚ` (the claims under
  study are exact algebraic identities or control-flow facts, not rounding
  statements);
* a vector of length `n` is a function `Fin n → ℚ`, a dense matrix is a
  curried function of its two indices;
* `MFEM_VERIFY`/`MFEM_ABORT` failures are modelled by `Except`/status
  enumerations returned by the embedded function.
-/

namespace MfemSpec

/-! ## Bilinear form: diagonal policy, matrix-split elimination, FullMult

`BilinearForm::FullMult` is inline in `fem/bilinearform.hpp` (lines 296-297):
`y = mat * x` followed by `y += mat_e * x`.  The body of
`BilinearForm::EliminateVDofs(vdofs, dpolicy)` (matrix-split mode) lives in
`bilinearform.cpp`, which is not part of the sources under study; it is
modelled from the spec below. -/

/-- Matrix-vector product `y = A x` for a dense `n × n` matrix over `ℚ`. -/
def mulVec {n : ℕ} (A : Fin n → Fin n → ℚ) (x : Fin n → ℚ) : Fin n → ℚ :=
  fun i => ∑ j, A i j * x j

/-- `Operator::DiagonalPolicy`: value placed on an eliminated diagonal entry. -/
inductive DiagonalPolicy where
  | DIAG_KEEP
  | DIAG_ONE
  | DIAG_ZERO
deriving DecidableEq, Repr

/-- Modelled from the spec: the matrix-split mode of
`BilinearForm::EliminateVDofs(vdofs, dpolicy)` (implemented in
`bilinearform.cpp`, not among the sources) "moves the to-be-eliminated
rows/columns into the elimination companion matrix, leaving the live operator
consistent with a zero-valued boundary"; eliminated diagonal entries follow
the diagonal policy.  Returns the pair `(M, M_e)`: off-diagonal entries of an
eliminated row/column move to `M_e`, the eliminated diagonal entry becomes
`KEEP ↦ a`, `ONE ↦ 1`, `ZERO ↦ 0` in `M` with the complementary part
(`0`, `a - 1`, `a` respectively) recorded in `M_e`. -/
def eliminateVDofs {n : ℕ} (A : Fin n → Fin n → ℚ) (elim : Fin n → Bool)
    (pol : DiagonalPolicy) : (Fin n → Fin n → ℚ) × (Fin n → Fin n → ℚ) :=
  (fun i j =>
    if elim i || elim j then
      (if i = j then
        (match pol with
         | .DIAG_KEEP => A i i
         | .DIAG_ONE => 1
         | .DIAG_ZERO => 0)
       else 0)
    else A i j,
   fun i j =>
    if elim i || elim j then
      (if i = j then
        (match pol with
         | .DIAG_KEEP => 0
         | .DIAG_ONE => A i i - 1
         | .DIAG_ZERO => A i i)
       else A i j)
    else 0)

/-- `BilinearForm::FullMult` (bilinearform.hpp:296-297):
`mat->Mult(x, y); mat_e->AddMult(x, y);`, i.e. `y = M x + M_e x`. -/
def fullMult {n : ℕ} (mat mat_e : Fin n → Fin n → ℚ) (x : Fin n → ℚ) :
    Fin n → ℚ :=
  fun i => mulVec mat x i + mulVec mat_e x i

/-- C1: for every vector `x` and every diagonal policy, after a matrix-split
`EliminateVDofs` the product `FullMult(x, ·)` coincides with the original
pre-elimination matrix applied to `x`: the split `M + M_e = M_original` is
preserved by elimination. -/
theorem fullMult_after_eliminate_eq_original {n : ℕ}
    (A : Fin n → Fin n → ℚ) (elim : Fin n → Bool) (pol : DiagonalPolicy)
    (x : Fin n → ℚ) :
    fullMult (eliminateVDofs A elim pol).1 (eliminateVDofs A elim pol).2 x
      = mulVec A x := by
  funext i
  unfold fullMult mulVec eliminateVDofs
  rw [← Finset.sum_add_distrib]
  refine Finset.sum_congr rfl fun j _ => ?_
  rw [← add_mul]
  congr 1
  by_cases he : elim i || elim j
  · simp only [he, if_true]
    by_cases hij : i = j
    · subst hij
      cases pol <;> simp
    · simp [hij]
  · simp [he]

/-! ## L2ProjectionGridTransfer::BuildF strategy selection (transfer.cpp:1135-1159) -/

/-- `FiniteElementCollection` continuity classification (`GetContType`). -/
inductive ContType where
  | CONTINUOUS
  | TANGENTIAL
  | NORMAL
  | DISCONTINUOUS
deriving DecidableEq, Repr

/-- The two structurally different projection strategies `BuildF` can pick. -/
inductive ProjStrategy where
  | h1Space
  | l2Space
deriving DecidableEq, Repr

/-- `L2ProjectionGridTransfer::BuildF` (transfer.cpp:1135-1159): constructs
`L2ProjectionH1Space` when `!force_l2_space` and the domain collection is
`CONTINUOUS` (both in the serial and in the parallel branch), otherwise
`L2ProjectionL2Space`. -/
def buildF (force_l2_space : Bool) (domContType : ContType) : ProjStrategy :=
  if ¬force_l2_space ∧ domContType = ContType.CONTINUOUS then
    ProjStrategy.h1Space
  else
    ProjStrategy.l2Space

/-- C4: `BuildF` selects the continuous-space strategy iff the domain space's
collection is continuity-constrained (`CONTINUOUS`) and the
force-discontinuous override is not set; in every other case it selects
`L2ProjectionL2Space`. -/
theorem buildF_strategy (force_l2_space : Bool) (ct : ContType) :
    (buildF force_l2_space ct = ProjStrategy.h1Space
      ↔ (force_l2_space = false ∧ ct = ContType.CONTINUOUS))
    ∧ (buildF force_l2_space ct ≠ ProjStrategy.h1Space
      → buildF force_l2_space ct = ProjStrategy.l2Space) := by
  cases force_l2_space <;> cases ct <;> simp [buildF]

/-! ## TensorProductPRefinementTransferOperator dimension dispatch
(transfer.cpp:1645-1695) -/

/-- Outcome of one call to `TensorProductPRefinementTransferOperator::Mult`
or `::MultTranspose`, as far as control flow is concerned. -/
inductive TPCallOutcome where
  /-- the `lFESpace` mesh has no elements: the method returns at once -/
  | emptyReturn
  /-- the 2-D kernel (`Prolongation2D`/`Restriction2D`) was dispatched -/
  | ran2D
  /-- the 3-D kernel (`Prolongation3D`/`Restriction3D`) was dispatched -/
  | ran3D
  /-- `MFEM_ABORT("... not implemented for dim = ...")` -/
  | abortUnsupportedDim
deriving DecidableEq, Repr

/-- Control flow of `TensorProductPRefinementTransferOperator::Mult`
(transfer.cpp:1645-1669): early return on an empty mesh, then dispatch on
`dim == 2`, `dim == 3`, else abort. -/
def tpMultOutcome (numElements dim : ℕ) : TPCallOutcome :=
  if numElements = 0 then TPCallOutcome.emptyReturn
  else if dim = 2 then TPCallOutcome.ran2D
  else if dim = 3 then TPCallOutcome.ran3D
  else TPCallOutcome.abortUnsupportedDim

/-- Control flow of `TensorProductPRefinementTransferOperator::MultTranspose`
(transfer.cpp:1671-1695): identical dispatch structure to `Mult`. -/
def tpMultTransposeOutcome (numElements dim : ℕ) : TPCallOutcome :=
  if numElements = 0 then TPCallOutcome.emptyReturn
  else if dim = 2 then TPCallOutcome.ran2D
  else if dim = 3 then TPCallOutcome.ran3D
  else TPCallOutcome.abortUnsupportedDim

/-- C7: `TensorProductPRefinementTransferOperator` has code paths only for
mesh dimensions 2 and 3: on a non-empty mesh of any dimension above 3 both
`Mult` and `MultTranspose` abort with the unsupported-dimension error. -/
theorem tp_dispatch_unsupported_above_3 (numElements dim : ℕ)
    (hne : 0 < numElements) (hdim : 3 < dim) :
    tpMultOutcome numElements dim = TPCallOutcome.abortUnsupportedDim
    ∧ tpMultTransposeOutcome numElements dim
        = TPCallOutcome.abortUnsupportedDim := by
  have h0 : numElements ≠ 0 := hne.ne'
  have h2 : dim ≠ 2 := by omega
  have h3 : dim ≠ 3 := by omega
  constructor <;> simp [tpMultOutcome, tpMultTransposeOutcome, h0, h2, h3]

/-- Witness for C7 at the concrete input `numElements = 1`, `dim = 4`. -/
theorem tp_dispatch_unsupported_above_3_witness :
    tpMultOutcome 1 4 = TPCallOutcome.abortUnsupportedDim
    ∧ tpMultTransposeOutcome 1 4 = TPCallOutcome.abortUnsupportedDim :=
  tp_dispatch_unsupported_above_3 1 4 (by decide) (by decide)

/-! ## L2ProjectionH1Space: PCG configuration and convergence-status opacity
(transfer.cpp:638-649, 701-767) -/

/-- Configuration state of the `CGSolver` member `pcg` of
`L2ProjectionH1Space`. -/
structure CGSolverState where
  printLevel : ℤ
  maxIter : ℕ
  relTol : ℚ
  absTol : ℚ
  preconSet : Bool
  operatorSet : Bool
deriving DecidableEq, Repr

/-- `L2ProjectionH1Space::SetupPCG` (transfer.cpp:638-649): print level 0,
`SetMaxIter(1000)`, `SetRelTol(1e-13)`, `SetAbsTol(1e-13)`, then attaches the
preconditioner and the operator. -/
def setupPCG (pcg : CGSolverState) : CGSolverState :=
  { pcg with
    printLevel := 0
    maxIter := 1000
    relTol := 1 / 10 ^ 13
    absTol := 1 / 10 ^ 13
    preconSet := true
    operatorSet := true }

/-- `L2ProjectionH1Space::SetRelTol` (transfer.cpp:759-762): forwards to
`pcg.SetRelTol`. -/
def setRelTol (pcg : CGSolverState) (p_rtol : ℚ) : CGSolverState :=
  { pcg with relTol := p_rtol }

/-- `L2ProjectionH1Space::SetAbsTol` (transfer.cpp:764-767): forwards to
`pcg.SetAbsTol`. -/
def setAbsTol (pcg : CGSolverState) (p_atol : ℚ) : CGSolverState :=
  { pcg with absTol := p_atol }

/-- Modelled from the spec: `IterativeSolver::SetMaxIter` of the external
iterative-solver interface (the solver itself is out of scope, "specified
only at the interface"); it makes the iteration cap configurable. -/
def pcgSetMaxIter (pcg : CGSolverState) (m : ℕ) : CGSolverState :=
  { pcg with maxIter := m }

/-- Modelled from the spec: the outcome of one `pcg.Mult` solve of the
external CG solver — the iterate it produced and its internal
converged/capped flag. -/
structure CGResult where
  sol : ℕ → ℚ
  converged : Bool

/-- Core of `L2ProjectionH1Space::Prolongate` (transfer.cpp:701-728) for one
vector component: `Xbar = M_LH^T X`, then `pcg.Mult(Xbar, Y_dim)`; only the
iterate of the solve is used — the convergence flag is never consulted and
the method returns no status. -/
def h1Prolongate (pcgMult : (ℕ → ℚ) → CGResult)
    (multTransposeMLH : (ℕ → ℚ) → ℕ → ℚ) (x : ℕ → ℚ) : ℕ → ℚ :=
  (pcgMult (multTransposeMLH x)).sol

/-- Core of `L2ProjectionH1Space::ProlongateTranspose` (transfer.cpp:730-757)
for one vector component: `Xbar = pcg.Mult(X)`, then `Y = M_LH Xbar`; again
only the iterate is used and no status is returned. -/
def h1ProlongateTranspose (pcgMult : (ℕ → ℚ) → CGResult)
    (multMLH : (ℕ → ℚ) → ℕ → ℚ) (x : ℕ → ℚ) : ℕ → ℚ :=
  multMLH (pcgMult x).sol

/-- C8: `SetupPCG` configures the continuous-strategy solver with an
iteration cap of 1000 and relative/absolute tolerances `1e-13`; the
tolerances are adjustable afterwards through `SetRelTol`/`SetAbsTol` (and the
cap through the solver's own `SetMaxIter`); and two solvers whose iterates
agree but whose converged/capped flags differ are indistinguishable through
`Prolongate`/`ProlongateTranspose` — reaching the cap is not reported
distinctly from convergence. -/
theorem pcg_defaults_and_status_opacity :
    (∀ s : CGSolverState, (setupPCG s).maxIter = 1000
        ∧ (setupPCG s).relTol = 1 / 10 ^ 13
        ∧ (setupPCG s).absTol = 1 / 10 ^ 13)
    ∧ (∀ s r, (setRelTol s r).relTol = r ∧ (setRelTol s r).maxIter = s.maxIter)
    ∧ (∀ s a, (setAbsTol s a).absTol = a ∧ (setAbsTol s a).relTol = s.relTol)
    ∧ (∀ s m, (pcgSetMaxIter s m).maxIter = m)
    ∧ (∀ pm pm' : (ℕ → ℚ) → CGResult, (∀ v, (pm v).sol = (pm' v).sol) →
        ∀ f x, h1Prolongate pm f x = h1Prolongate pm' f x
          ∧ h1ProlongateTranspose pm f x = h1ProlongateTranspose pm' f x) := by
  refine ⟨fun s => ⟨rfl, rfl, rfl⟩, fun s r => ⟨rfl, rfl⟩, fun s a => ⟨rfl, rfl⟩,
    fun s m => rfl, fun pm pm' h f x => ⟨?_, ?_⟩⟩
  · unfold h1Prolongate; rw [h]
  · unfold h1ProlongateTranspose; rw [h]

/-- Witness for C8: two concrete solvers returning the same iterate but
opposite convergence flags give identical `Prolongate` results. -/
theorem pcg_defaults_and_status_opacity_witness :
    h1Prolongate (fun v => ⟨v, true⟩) id (fun _ => (1 : ℚ))
      = h1Prolongate (fun v => ⟨v, false⟩) id (fun _ => (1 : ℚ)) :=
  (pcg_defaults_and_status_opacity.2.2.2.2 (fun v => ⟨v, true⟩)
    (fun v => ⟨v, false⟩) (fun _ => rfl) id (fun _ => (1 : ℚ))).1

/-! ## TrueTransferOperator (transfer.cpp:1698-1768) -/

/-- An linear operator together with its transpose action, abstracting the
`Operator` interface (`Mult`/`MultTranspose`). -/
structure LinOp where
  fwd : (ℕ → ℚ) → ℕ → ℚ
  tr : (ℕ → ℚ) → ℕ → ℚ

/-- The `MFEM_VERIFY(R, ...)` of the `TrueTransferOperator` constructor
(transfer.cpp:1713): whenever the coarse prolongation `P` exists, the fine
restriction `R` must exist too. -/
def trueTransferVerify (P R : Option LinOp) : Bool :=
  !P.isSome || R.isSome

/-- `TrueTransferOperator::Mult` (transfer.cpp:1732-1749): dispatch on which
of `P`, `R` are present; `none` models the null-dereference that the
constructor-time verify excludes. -/
def trueTransferMult (P R : Option LinOp) (localTransferOperator : LinOp)
    (x : ℕ → ℚ) : Option (ℕ → ℚ) :=
  match P, R with
  | some p, some r => some (r.fwd (localTransferOperator.fwd (p.fwd x)))
  | some _, none => none
  | none, some r => some (r.fwd (localTransferOperator.fwd x))
  | none, none => some (localTransferOperator.fwd x)

/-- `TrueTransferOperator::MultTranspose` (transfer.cpp:1751-1768): the
transposes composed in reverse order. -/
def trueTransferMultTranspose (P R : Option LinOp)
    (localTransferOperator : LinOp) (x : ℕ → ℚ) : Option (ℕ → ℚ) :=
  match P, R with
  | some p, some r => some (p.tr (localTransferOperator.tr (r.tr x)))
  | some _, none => none
  | none, some r => some (localTransferOperator.tr (r.tr x))
  | none, none => some (localTransferOperator.tr x)

/-- Apply an optional operator forward, with identity substituted when it is
absent. -/
def applyOpt (o : Option LinOp) (x : ℕ → ℚ) : ℕ → ℚ :=
  match o with
  | some f => f.fwd x
  | none => x

/-- Apply the transpose of an optional operator, with identity substituted
when it is absent. -/
def applyOptTr (o : Option LinOp) (x : ℕ → ℚ) : ℕ → ℚ :=
  match o with
  | some f => f.tr x
  | none => x

/-- C10: under the constructor-verified precondition (`P` present implies `R`
present), `TrueTransferOperator::Mult` totally dispatches over the three
possible cases and always computes `R ∘ localTransfer ∘ P` with identity for
each absent operator, and `MultTranspose` computes the transposes composed in
reverse order. -/
theorem trueTransfer_dispatch (P R : Option LinOp) (T : LinOp) (x : ℕ → ℚ)
    (h : trueTransferVerify P R = true) :
    trueTransferMult P R T x = some (applyOpt R (T.fwd (applyOpt P x)))
    ∧ trueTransferMultTranspose P R T x
        = some (applyOptTr P (T.tr (applyOptTr R x))) := by
  cases P <;> cases R <;>
    simp_all [trueTransferVerify, trueTransferMult, trueTransferMultTranspose,
      applyOpt, applyOptTr]

/-- Witness for C10 at the concrete input `P = R = none`, identity local
transfer. -/
theorem trueTransfer_dispatch_witness :
    trueTransferVerify none none = true
    ∧ trueTransferMult none none ⟨id, id⟩ (fun _ => (1 : ℚ))
        = some (applyOpt none (LinOp.fwd ⟨id, id⟩ (applyOpt none (fun _ => (1 : ℚ))))) :=
  ⟨rfl, (trueTransfer_dispatch none none ⟨id, id⟩ (fun _ => (1 : ℚ)) rfl).1⟩

/-! ## L2Projection::ElemMixedMass (transfer.cpp:258-283) -/

/-- The shape-evaluation capability of a `FiniteElement`: polynomial order,
DOF count and `CalcShape` (point id ↦ dof ↦ value).  Integration points are
abstract ids (`ℕ`). -/
structure FEModel where
  order : ℕ
  ndof : ℕ
  shape : ℕ → ℕ → ℚ

/-- An `ElementTransformation`: the order of its Jacobian determinant
(`OrderW`) and the geometric weight `Weight()` after `SetIntPoint`. -/
structure TransModel where
  orderW : ℕ
  weight : ℕ → ℚ

/-- `L2Projection::ElemMixedMass` (transfer.cpp:258-283) for a fixed element
geometry: the quadrature rule is looked up at order
`fe_lor.GetOrder() + fe_ho.GetOrder() + el_tr->OrderW()`; each point
contributes `el_tr->Weight() * ip.weight * shape_lor ⊗ shape_ho`, the HO
shape being evaluated at the image of the LOR point under `ip_tr`.
`rules o` is the rule `IntRules.Get(geom, o)` as a list of
(point id, quadrature weight) pairs. -/
def elemMixedMass (rules : ℕ → List (ℕ × ℚ)) (fe_ho fe_lor : FEModel)
    (el_tr : TransModel) (ipTr : ℕ → ℕ) : ℕ → ℕ → ℚ :=
  fun a b =>
    ((rules (fe_lor.order + fe_ho.order + el_tr.orderW)).map
      (fun ipw =>
        el_tr.weight ipw.1 * ipw.2 * fe_lor.shape ipw.1 a
          * fe_ho.shape (ipTr ipw.1) b)).sum

/-- The call context of `ElemMixedMass` inside the `L2ProjectionL2Space`
constructor (transfer.cpp:368-391): both the LOR element transformation
(`fes_lor.GetElementTransformation`) and the HO side geometry are available;
the source passes the LOR transformation as `el_tr`. -/
def elemMixedMassAtCall (rules : ℕ → List (ℕ × ℚ)) (fe_ho fe_lor : FEModel)
    (tr_lor : TransModel) (_tr_ho : TransModel) (ipTr : ℕ → ℕ) : ℕ → ℕ → ℚ :=
  elemMixedMass rules fe_ho fe_lor tr_lor ipTr

/-- The mixed mass matrix as the spec words it: "build the mixed mass matrix
between coarse basis and fine basis (quadrature order = sum of both elements'
polynomial orders plus transformation-Jacobian order, evaluated using the
fine element's geometry so curvature is captured only from the fine side)". -/
def elemMixedMassSpec (rules : ℕ → List (ℕ × ℚ)) (fe_ho fe_lor : FEModel)
    (fineJacOrder : ℕ) (fineGeomWeight : ℕ → ℚ) (ipTr : ℕ → ℕ) : ℕ → ℕ → ℚ :=
  fun a b =>
    ((rules (fe_lor.order + fe_ho.order + fineJacOrder)).map
      (fun ipw =>
        fineGeomWeight ipw.1 * ipw.2 * fe_lor.shape ipw.1 a
          * fe_ho.shape (ipTr ipw.1) b)).sum

/-- C5: `ElemMixedMass` integrates with the rule of order
`order_lor + order_ho + OrderW` and its result is independent of the HO-side
transformation available at the call site — the geometric weight comes from
the fine (LOR) transformation only; it coincides with the matrix the spec
describes. -/
theorem elemMixedMass_order_and_fine_geometry (rules : ℕ → List (ℕ × ℚ))
    (fe_ho fe_lor : FEModel) (tr_lor tr_ho tr_ho' : TransModel)
    (ipTr : ℕ → ℕ) :
    elemMixedMassAtCall rules fe_ho fe_lor tr_lor tr_ho ipTr
      = elemMixedMassAtCall rules fe_ho fe_lor tr_lor tr_ho' ipTr
    ∧ elemMixedMass rules fe_ho fe_lor tr_lor ipTr
      = elemMixedMassSpec rules fe_ho fe_lor tr_lor.orderW tr_lor.weight ipTr :=
  ⟨rfl, rfl⟩

/-! ## L2ProjectionL2Space: construction of P, Prolongate/ProlongateTranspose
(transfer.cpp:285-404, 473-543) -/

/-- The data of an `L2ProjectionL2Space` instance that determines its control
flow: element counts, true-DOF sizes, per-coarse-element local DOF counts and
refinement multiplicities, the coarse/fine element-to-DOF maps produced by
`GetElementVDofs`/`GetElementDofs` (scalar `vdim = 1`), and the dense local
prolongation blocks `P_iho`. -/
structure L2SpaceData where
  nel_ho : ℕ
  trueVSize_ho : ℕ
  trueVSize_lor : ℕ
  ndof_ho : ℕ → ℕ
  ndof_lor : ℕ → ℕ
  nref : ℕ → ℕ
  hoDofs : ℕ → List ℕ
  lorDofs : ℕ → ℕ → List ℕ
  Pblock : ℕ → ℕ → ℕ → ℚ

/-- The `build_P` flag of the `L2ProjectionL2Space` constructor
(transfer.cpp:296): `fes_lor.GetTrueVSize() >= fes_ho.GetTrueVSize()`. -/
def buildP (d : L2SpaceData) : Bool :=
  decide (d.trueVSize_ho ≤ d.trueVSize_lor)

/-- The `offsets` array of the constructor (transfer.cpp:314-322):
`offsets[n] = Σ_{i<n} ndof_ho(i) * ndof_lor(i) * nref(i)`. -/
def l2Offsets (d : L2SpaceData) (n : ℕ) : ℕ :=
  ∑ i ∈ Finset.range n, d.ndof_ho i * d.ndof_lor i * d.nref i

/-- The size of the prolongation storage `P` after construction
(transfer.cpp:285-330): zero when the local mesh is empty (the constructor
returns at line 299 before any allocation), otherwise `offsets[nel_ho]` when
`build_P` holds and zero when it does not. -/
def pSize (d : L2SpaceData) : ℕ :=
  if d.nel_ho = 0 then 0
  else if buildP d then l2Offsets d d.nel_ho else 0

/-- Gather of the LOR DOFs into the stacked local vector `xel_mat`
(transfer.cpp:491-501): entry `iref*ndof_lor + i` reads `x` at DOF `i` of the
`iref`-th fine element of patch `iho`. -/
def l2GatherLor (d : L2SpaceData) (x : ℕ → ℚ) (iho k : ℕ) : ℚ :=
  match (d.lorDofs iho (k / d.ndof_lor iho))[k % d.ndof_lor iho]? with
  | some dof => x dof
  | none => 0

/-- The local prolongation `yel = P_iho * xel` (transfer.cpp:503). -/
def l2LocalProl (d : L2SpaceData) (x : ℕ → ℚ) (iho p : ℕ) : ℚ :=
  ∑ k ∈ Finset.range (d.ndof_lor iho * d.nref iho),
    d.Pblock iho p k * l2GatherLor d x iho k

/-- `y.AddElementVector(vdofs, yel)` at the HO DOFs of element `iho`
(transfer.cpp:505-506). -/
def l2AddHo (d : L2SpaceData) (iho : ℕ) (v : ℕ → ℚ) (y : ℕ → ℚ) : ℕ → ℚ :=
  fun g => y g + ∑ p ∈ Finset.range (d.ndof_ho iho),
    if (d.hoDofs iho)[p]? = some g then v p else 0

/-- The element loop of `L2ProjectionL2Space::Prolongate`
(transfer.cpp:481-507): `y = 0`, then per coarse element gather, local
multiply by `P_iho`, accumulate into the HO vector. -/
def l2ProlongateCompute (d : L2SpaceData) (x : ℕ → ℚ) : ℕ → ℚ :=
  (List.range d.nel_ho).foldl
    (fun y iho => l2AddHo d iho (l2LocalProl d x iho) y) (fun _ => 0)

/-- `L2ProjectionL2Space::Prolongate` (transfer.cpp:473-508): empty-mesh
early return first, then `MFEM_VERIFY(P.Size() > 0, "Prolongation not
supported for these spaces.")`, then the element loop. -/
def l2Prolongate (d : L2SpaceData) (x y : ℕ → ℚ) : Except String (ℕ → ℚ) :=
  if d.nel_ho = 0 then .ok y
  else if 0 < pSize d then .ok (l2ProlongateCompute d x)
  else .error "Prolongation not supported for these spaces."

/-- The gather of the HO DOFs `xel = x[vdofs]` (transfer.cpp:527-528). -/
def l2GatherHo (d : L2SpaceData) (x : ℕ → ℚ) (iho p : ℕ) : ℚ :=
  match (d.hoDofs iho)[p]? with
  | some dof => x dof
  | none => 0

/-- The local transpose multiply `yel = P_ihoᵗ xel` (transfer.cpp:529). -/
def l2LocalProlT (d : L2SpaceData) (x : ℕ → ℚ) (iho k : ℕ) : ℚ :=
  ∑ p ∈ Finset.range (d.ndof_ho iho), d.Pblock iho p k * l2GatherHo d x iho p

/-- The scatter `y.SetSubVector` into the LOR vector, fine element by fine
element (transfer.cpp:531-541): covered entries are overwritten, the rest of
`y` is left as it was. -/
def l2SetLor (d : L2SpaceData) (iho : ℕ) (v : ℕ → ℚ) (y : ℕ → ℚ) : ℕ → ℚ :=
  (List.range (d.nref iho)).foldl
    (fun y iref =>
      (List.range (d.ndof_lor iho)).foldl
        (fun y i => fun g =>
          if (d.lorDofs iho iref)[i]? = some g then
            v (iref * d.ndof_lor iho + i)
          else y g)
        y)
    y

/-- `L2ProjectionL2Space::ProlongateTranspose` (transfer.cpp:510-543):
empty-mesh early return first, then the `P.Size() > 0` verify, then the
element loop (which does not zero `y` first). -/
def l2ProlongateTranspose (d : L2SpaceData) (x y : ℕ → ℚ) :
    Except String (ℕ → ℚ) :=
  if d.nel_ho = 0 then .ok y
  else if 0 < pSize d then
    .ok ((List.range d.nel_ho).foldl
      (fun yy iho => l2SetLor d iho (l2LocalProlT d x iho) yy) y)
  else .error "Prolongation not supported for these spaces."

/-- C9: on an empty coarse mesh, `P` is never allocated, and both
`Prolongate` and `ProlongateTranspose` return immediately with the output
vector unchanged and no error — the empty-mesh early return precedes the
`P.Size()` check. -/
theorem l2Prolongate_empty_mesh (d : L2SpaceData) (h : d.nel_ho = 0)
    (x y : ℕ → ℚ) :
    pSize d = 0
    ∧ l2Prolongate d x y = .ok y
    ∧ l2ProlongateTranspose d x y = .ok y := by
  refine ⟨?_, ?_, ?_⟩ <;>
    simp [pSize, l2Prolongate, l2ProlongateTranspose, h]

/-- A concrete `L2ProjectionL2Space` instance over an empty coarse mesh: both
spaces have zero true DOFs, so `build_P` holds, yet the constructor's early
return leaves `P` unallocated. -/
def emptyL2Data : L2SpaceData :=
  { nel_ho := 0
    trueVSize_ho := 0
    trueVSize_lor := 0
    ndof_ho := fun _ => 0
    ndof_lor := fun _ => 0
    nref := fun _ => 0
    hoDofs := fun _ => []
    lorDofs := fun _ _ => []
    Pblock := fun _ _ _ => 0 }

/-- Witness for C9 at the concrete empty-mesh instance. -/
theorem l2Prolongate_empty_mesh_witness :
    pSize emptyL2Data = 0
    ∧ l2Prolongate emptyL2Data (fun _ => 0) (fun _ => 1) = .ok (fun _ => 1)
    ∧ l2ProlongateTranspose emptyL2Data (fun _ => 0) (fun _ => 1)
        = .ok (fun _ => 1) :=
  l2Prolongate_empty_mesh emptyL2Data rfl (fun _ => 0) (fun _ => 1)

/-- Counterexample to C2 as stated: on the empty-mesh instance the fine space
has at least as many true DOFs as the coarse one (`0 ≤ 0`) yet `P` is not
built, and a `Prolongate` call with `P` unbuilt succeeds instead of failing
with the Unsupported error. -/
theorem l2BuildP_claim_counterexample :
    ¬(0 < pSize emptyL2Data
        ↔ emptyL2Data.trueVSize_ho ≤ emptyL2Data.trueVSize_lor)
    ∧ pSize emptyL2Data = 0
    ∧ l2Prolongate emptyL2Data (fun _ => 0) (fun _ => 1) = .ok (fun _ => 1) := by
  refine ⟨?_, rfl, rfl⟩
  simp [pSize, emptyL2Data]

/-- C2 (amended to a non-empty coarse mesh with non-degenerate elements):
`P` is built — `P.Size() > 0` — iff the fine space has at least as many true
DOFs as the coarse space, and when `P` was not built every `Prolongate` and
`ProlongateTranspose` call fails with the Unsupported contract error at that
call (the constructor itself never raises it). -/
theorem l2BuildP_iff_and_unsupported (d : L2SpaceData) (hne : 0 < d.nel_ho)
    (hdof : ∀ i < d.nel_ho, 0 < d.ndof_ho i ∧ 0 < d.ndof_lor i ∧ 0 < d.nref i) :
    (0 < pSize d ↔ d.trueVSize_ho ≤ d.trueVSize_lor)
    ∧ (pSize d = 0 → ∀ x y,
        l2Prolongate d x y
            = .error "Prolongation not supported for these spaces."
          ∧ l2ProlongateTranspose d x y
            = .error "Prolongation not supported for these spaces.") := by
  have hoff : 0 < l2Offsets d d.nel_ho := by
    unfold l2Offsets
    have h0 : 0 ∈ Finset.range d.nel_ho := Finset.mem_range.mpr hne
    refine Finset.sum_pos' (fun i _ => Nat.zero_le _) ⟨0, h0, ?_⟩
    obtain ⟨h1, h2, h3⟩ := hdof 0 hne
    positivity
  constructor
  · unfold pSize buildP
    rw [if_neg hne.ne']
    by_cases hb : d.trueVSize_ho ≤ d.trueVSize_lor
    · simp [hb, hoff]
    · simp [hb]
  · intro hp x y
    unfold l2Prolongate l2ProlongateTranspose
    rw [if_neg hne.ne', if_neg hne.ne', hp]
    simp

/-- Witness for the amended C2: one coarse element, fine space with fewer
true DOFs than the coarse space — `P` is not built and `Prolongate` fails
with the Unsupported error. -/
theorem l2BuildP_iff_and_unsupported_witness :
    pSize { emptyL2Data with
            nel_ho := 1, trueVSize_ho := 2, trueVSize_lor := 1,
            ndof_ho := fun _ => 1, ndof_lor := fun _ => 1,
            nref := fun _ => 1 } = 0
    ∧ l2Prolongate { emptyL2Data with
            nel_ho := 1, trueVSize_ho := 2, trueVSize_lor := 1,
            ndof_ho := fun _ => 1, ndof_lor := fun _ => 1,
            nref := fun _ => 1 } (fun _ => 0) (fun _ => 0)
        = .error "Prolongation not supported for these spaces." := by
  have h := l2BuildP_iff_and_unsupported
    { emptyL2Data with
      nel_ho := 1, trueVSize_ho := 2, trueVSize_lor := 1,
      ndof_ho := fun _ => 1, ndof_lor := fun _ => 1,
      nref := fun _ => 1 }
    (by decide) (by intro i _; exact ⟨Nat.one_pos, Nat.one_pos, Nat.one_pos⟩)
  have hp : pSize { emptyL2Data with
      nel_ho := 1, trueVSize_ho := 2, trueVSize_lor := 1,
      ndof_ho := fun _ => 1, ndof_lor := fun _ => 1,
      nref := fun _ => 1 } = 0 := by
    simp [pSize, buildP, emptyL2Data]
  exact ⟨hp, (h.2 hp (fun _ => 0) (fun _ => 0)).1⟩

/-! ## PRefinementTransferOperator (transfer.cpp:1222-1343)

Scalar (`vdim = 1`) instance without DOF sign/orientation transformations
(`doftrans = null`), which is the general H1/L2 case.  An element carries the
global high-order and low-order DOF lists returned by `GetElementDofs` and
the local transfer matrix `loc_prol` produced by `GetTransferMatrix` (a
function of the element's geometry; the source's per-geometry cache returns
exactly this matrix for every element of that geometry). -/

/-- One mesh element as seen by `PRefinementTransferOperator`: `h_dofs`,
`l_dofs` and the local prolongation `loc_prol` (row = position in `h_dofs`,
column = position in `l_dofs`). -/
structure TElem (L H : ℕ) where
  hdofs : List (Fin H)
  ldofs : List (Fin L)
  locProl : ℕ → ℕ → ℚ

/-- `Vector::SetSubVector(dofs, v)`: `y[dofs[p]] = v[p]` for `p = 0, 1, …`
(a later position overwrites an earlier one). -/
def setSub {H : ℕ} : List (Fin H) → (ℕ → ℚ) → (Fin H → ℚ) → Fin H → ℚ
  | [], _, y => y
  | d :: ds, v, y =>
      setSub ds (fun p => v (p + 1)) (fun g => if g = d then v 0 else y g)

/-- `Vector::AddElementVector(dofs, v)`: `y[dofs[q]] += v[q]` for
`q = 0, 1, …` (duplicate positions accumulate). -/
def addSub {L : ℕ} : List (Fin L) → (ℕ → ℚ) → (Fin L → ℚ) → Fin L → ℚ
  | [], _, y => y
  | d :: ds, v, y =>
      addSub ds (fun q => v (q + 1)) (fun g => if g = d then y g + v 0 else y g)

/-- `x.GetSubVector(l_vdofs, subX)`: read `x` at the `q`-th low-order DOF of
the element. -/
def gatherL {L H : ℕ} (e : TElem L H) (x : Fin L → ℚ) (q : ℕ) : ℚ :=
  match e.ldofs[q]? with
  | some l => x l
  | none => 0

/-- The local multiply `subY = loc_prol * subX` of
`PRefinementTransferOperator::Mult` (transfer.cpp:1263). -/
def locMult {L H : ℕ} (e : TElem L H) (x : Fin L → ℚ) (p : ℕ) : ℚ :=
  ∑ q ∈ Finset.range e.ldofs.length, e.locProl p q * gatherL e x q

/-- One element iteration of `PRefinementTransferOperator::Mult`
(transfer.cpp:1236-1270): gather, local multiply, `y.SetSubVector`. -/
def pMultStep {L H : ℕ} (x : Fin L → ℚ) (y : Fin H → ℚ) (e : TElem L H) :
    Fin H → ℚ :=
  setSub e.hdofs (locMult e x) y

/-- `PRefinementTransferOperator::Mult` (transfer.cpp:1222-1271): the element
loop over the output vector `y` (whose prior content `y0` survives at DOFs no
element writes). -/
def pMult {L H : ℕ} (es : List (TElem L H)) (x : Fin L → ℚ)
    (y0 : Fin H → ℚ) : Fin H → ℚ :=
  es.foldl (pMultStep x) y0

/-- The gather `x.GetSubVector(h_vdofs, subX)` of `MultTranspose` followed by
the per-DOF processed-marker zeroing (transfer.cpp:1317-1328): a position
whose DOF was already processed by an earlier element contributes `0`. -/
def gatherMasked {L H : ℕ} (e : TElem L H) (x : Fin H → ℚ)
    (processed : Fin H → Bool) (p : ℕ) : ℚ :=
  match e.hdofs[p]? with
  | some g => if processed g then 0 else x g
  | none => 0

/-- The local transpose multiply `subY = loc_prolᵗ * subX` of `MultTranspose`
(transfer.cpp:1305,1330): `loc_prol` is transposed before the multiply, so
output position `q` sums `loc_prol[p][q] * subX[p]`. -/
def locMultT {L H : ℕ} (e : TElem L H) (subX : ℕ → ℚ) (q : ℕ) : ℚ :=
  ∑ p ∈ Finset.range e.hdofs.length, e.locProl p q * subX p

/-- One element iteration of `MultTranspose` (transfer.cpp:1293-1342): masked
gather, local transpose multiply, `y.AddElementVector`, then mark every DOF
of this element as processed. -/
def pMultTStep {L H : ℕ} (x : Fin H → ℚ)
    (st : (Fin L → ℚ) × (Fin H → Bool)) (e : TElem L H) :
    (Fin L → ℚ) × (Fin H → Bool) :=
  (addSub e.ldofs (locMultT e (gatherMasked e x st.2)) st.1,
   fun g => st.2 g || decide (g ∈ e.hdofs))

/-- `PRefinementTransferOperator::MultTranspose` (transfer.cpp:1273-1343):
`y = 0`, all processed markers cleared, then the element loop. -/
def pMultTranspose {L H : ℕ} (es : List (TElem L H)) (x : Fin H → ℚ) :
    Fin L → ℚ :=
  (es.foldl (pMultTStep x) (fun _ => 0, fun _ => false)).1

/-- First position of `g` in a DOF list (the position `SetSubVector`
effectively writes and the transpose accumulation reads). -/
def posOf {H : ℕ} : List (Fin H) → Fin H → ℕ
  | [], _ => 0
  | d :: ds, g => if g = d then 0 else posOf ds g + 1

/-- Row `p` of the global matrix block contributed by element `e`: the global
low-order row vector scattered from row `p` of `loc_prol` through `l_dofs`. -/
def rowAt {L H : ℕ} (e : TElem L H) (p : ℕ) (l : Fin L) : ℚ :=
  ∑ q ∈ Finset.range e.ldofs.length,
    if e.ldofs[q]? = some l then e.locProl p q else 0

/-- The global row that element `e` produces for the high-order DOF `g`. -/
def rowOf {L H : ℕ} (e : TElem L H) (g : Fin H) : Fin L → ℚ :=
  rowAt e (posOf e.hdofs g)

lemma posOf_getElem {H : ℕ} {ds : List (Fin H)} {g : Fin H} (hg : g ∈ ds) :
    ds[posOf ds g]? = some g := by
  induction ds with
  | nil => cases hg
  | cons d ds ih =>
    by_cases hgd : g = d
    · subst hgd; simp [posOf]
    · rcases List.mem_cons.mp hg with h | h
      · exact absurd h hgd
      · simpa [posOf, hgd] using ih h

lemma posOf_eq {H : ℕ} {ds : List (Fin H)} (hnd : ds.Nodup) {p : ℕ}
    {g : Fin H} (hp : ds[p]? = some g) : posOf ds g = p := by
  induction ds generalizing p with
  | nil => simp at hp
  | cons d ds ih =>
    rcases List.nodup_cons.mp hnd with ⟨hdn, hnd'⟩
    cases p with
    | zero =>
      simp only [List.getElem?_cons_zero, Option.some_inj] at hp
      subst hp; simp [posOf]
    | succ q =>
      simp only [List.getElem?_cons_succ] at hp
      have hgm : g ∈ ds := by
        have := List.getElem?_eq_some_iff.mp hp
        rcases this with ⟨hlt, hget⟩
        exact hget ▸ List.getElem_mem hlt
      have hgd : g ≠ d := fun h => hdn (h ▸ hgm)
      simp [posOf, hgd, ih hnd' hp]

lemma setSub_not_mem {H : ℕ} {ds : List (Fin H)} {g : Fin H} (hg : g ∉ ds)
    (v : ℕ → ℚ) (y : Fin H → ℚ) : setSub ds v y g = y g := by
  induction ds generalizing v y with
  | nil => rfl
  | cons d ds ih =>
    have hgd : g ≠ d := fun h => hg (h ▸ List.mem_cons_self d ds)
    have hgs : g ∉ ds := fun h => hg (List.mem_cons_of_mem d h)
    simp [setSub, ih hgs, hgd]

lemma setSub_mem {H : ℕ} {ds : List (Fin H)} (hnd : ds.Nodup) {p : ℕ}
    {g : Fin H} (hp : ds[p]? = some g) (v : ℕ → ℚ) (y : Fin H → ℚ) :
    setSub ds v y g = v p := by
  induction ds generalizing p v y with
  | nil => simp at hp
  | cons d ds ih =>
    rcases List.nodup_cons.mp hnd with ⟨hdn, hnd'⟩
    cases p with
    | zero =>
      simp only [List.getElem?_cons_zero, Option.some_inj] at hp
      subst hp
      rw [setSub, setSub_not_mem hdn]
      simp
    | succ q =>
      simp only [List.getElem?_cons_succ] at hp
      rw [setSub, ih hnd' hp]

lemma addSub_apply {L : ℕ} (ds : List (Fin L)) (v : ℕ → ℚ) (y : Fin L → ℚ)
    (l : Fin L) :
    addSub ds v y l
      = y l + ∑ q ∈ Finset.range ds.length,
          (if ds[q]? = some l then v q else 0) := by
  induction ds generalizing v y with
  | nil => simp [addSub]
  | cons d ds ih =>
    rw [addSub, ih]
    rw [List.length_cons, Finset.sum_range_succ']
    simp only [List.getElem?_cons_succ, List.getElem?_cons_zero]
    by_cases hld : l = d
    · subst hld
      simp only [if_true, eq_self_iff_true, Option.some_inj]
      ring
    · have : ¬(some d = some l) := fun h => hld (Option.some_inj.mp h).symm
      simp only [if_neg hld, if_neg this]
      ring

/-- Positional sums over a list rewritten as mapped list sums. -/
lemma sum_range_option {H : ℕ} (ds : List (Fin H)) (f : Fin H → ℚ) :
    (∑ p ∈ Finset.range ds.length,
        (match ds[p]? with | some a => f a | none => 0))
      = (ds.map f).sum := by
  induction ds with
  | nil => simp
  | cons d ds ih =>
    rw [List.length_cons, Finset.sum_range_succ']
    simp only [List.getElem?_cons_succ, List.getElem?_cons_zero]
    rw [ih, List.map_cons, List.sum_cons]
    ring


/-- The local multiply of `Mult`, read through the rows of the element's
global block. -/
lemma locMult_eq_rowSum {L H : ℕ} (e : TElem L H) (x : Fin L → ℚ) (p : ℕ) :
    locMult e x p = ∑ l, rowAt e p l * x l := by
  unfold rowAt
  have hdist : ∀ l : Fin L,
      (∑ q ∈ Finset.range e.ldofs.length,
          if e.ldofs[q]? = some l then e.locProl p q else 0) * x l
        = ∑ q ∈ Finset.range e.ldofs.length,
            (if e.ldofs[q]? = some l then e.locProl p q * x l else 0) := by
    intro l
    rw [Finset.sum_mul]
    exact Finset.sum_congr rfl fun q _ => by split <;> simp
  simp only [hdist]
  rw [Finset.sum_comm]
  unfold locMult
  refine Finset.sum_congr rfl fun q hq => ?_
  have hlt := Finset.mem_range.mp hq
  have hsome : e.ldofs[q]? = some (e.ldofs.get ⟨q, hlt⟩) :=
    List.getElem?_eq_getElem hlt
  simp only [hsome, Option.some_inj]
  rw [Finset.sum_ite_eq]
  simp [gatherL, hsome]

/-- One `MultTranspose` element iteration, read per DOF: the contribution of
every not-yet-processed DOF `g` of this element is `x g` times the element's
global row for `g`. -/
lemma pMultTStep_fst {L H : ℕ} (e : TElem L H) (hnd : e.hdofs.Nodup)
    (x : Fin H → ℚ) (y0 : Fin L → ℚ) (proc : Fin H → Bool) (l : Fin L) :
    (pMultTStep x (y0, proc) e).1 l
      = y0 l + ∑ g ∈ e.hdofs.toFinset,
          (if proc g then 0 else x g) * rowOf e g l := by
  show addSub e.ldofs (locMultT e (gatherMasked e x proc)) y0 l = _
  rw [addSub_apply]
  congr 1
  have hsplit : ∀ q ∈ Finset.range e.ldofs.length,
      (if e.ldofs[q]? = some l then locMultT e (gatherMasked e x proc) q else 0)
        = ∑ p ∈ Finset.range e.hdofs.length,
            (if e.ldofs[q]? = some l then e.locProl p q else 0)
              * gatherMasked e x proc p := by
    intro q _
    unfold locMultT
    split
    · rfl
    · simp
  rw [Finset.sum_congr rfl hsplit, Finset.sum_comm]
  have hrow : ∀ p ∈ Finset.range e.hdofs.length,
      (∑ q ∈ Finset.range e.ldofs.length,
          (if e.ldofs[q]? = some l then e.locProl p q else 0)
            * gatherMasked e x proc p)
        = (match e.hdofs[p]? with
           | some g => (if proc g then 0 else x g) * rowOf e g l
           | none => 0) := by
    intro p hp
    have hlt := Finset.mem_range.mp hp
    have hsome : e.hdofs[p]? = some (e.hdofs.get ⟨p, hlt⟩) :=
      List.getElem?_eq_getElem hlt
    have hpos : posOf e.hdofs (e.hdofs.get ⟨p, hlt⟩) = p := posOf_eq hnd hsome
    rw [← Finset.sum_mul]
    simp only [gatherMasked, rowOf, rowAt, hsome, hpos]
    ring
  rw [Finset.sum_congr rfl hrow, sum_range_option,
    List.sum_toFinset _ hnd]

/-- The processed-marker component of the `MultTranspose` fold: after the
loop a DOF is marked iff it was marked before or belongs to some visited
element. -/
lemma pMultT_fold_snd {L H : ℕ} (es : List (TElem L H)) (x : Fin H → ℚ)
    (st : (Fin L → ℚ) × (Fin H → Bool)) (g : Fin H) :
    (es.foldl (pMultTStep x) st).2 g
      = (st.2 g || es.any (fun e => decide (g ∈ e.hdofs))) := by
  induction es generalizing st with
  | nil => simp
  | cons e es ih =>
    rw [List.foldl_cons, ih]
    simp [pMultTStep, Bool.or_assoc]

/-- The accumulation invariant of `MultTranspose`: starting from output `y0`
and marker state `proc`, the loop adds, for each unprocessed DOF `g` covered
by the visited elements, `x g` times the global row `A g` — the row taken
from the first element that touches `g`, which matches `A` whenever `A`
agrees with every element's block rows. -/
lemma pMultT_fold_fst {L H : ℕ} (es : List (TElem L H))
    (A : Fin H → Fin L → ℚ) (x : Fin H → ℚ)
    (y0 : Fin L → ℚ) (proc : Fin H → Bool) (l : Fin L) :
    (∀ e ∈ es, e.hdofs.Nodup) →
    (∀ e ∈ es, ∀ g ∈ e.hdofs, rowOf e g = A g) →
    (es.foldl (pMultTStep x) (y0, proc)).1 l
      = y0 l + ∑ g ∈ Finset.univ.filter
          (fun g => proc g = false ∧ (∃ e ∈ es, g ∈ e.hdofs)),
          A g l * x g := by
  induction es generalizing y0 proc with
  | nil => intro _ _; simp
  | cons e es ih =>
    intro hnd hA
    have hnde := hnd e (List.mem_cons_self e es)
    have hnd' : ∀ e' ∈ es, e'.hdofs.Nodup := fun e' he' =>
      hnd e' (List.mem_cons_of_mem e he')
    have hA' : ∀ e' ∈ es, ∀ g ∈ e'.hdofs, rowOf e' g = A g := fun e' he' =>
      hA e' (List.mem_cons_of_mem e he')
    have hAe : ∀ g ∈ e.hdofs, rowOf e g = A g := hA e (List.mem_cons_self e es)
    rw [List.foldl_cons,
      show pMultTStep x (y0, proc) e
          = ((pMultTStep x (y0, proc) e).1,
             fun g => proc g || decide (g ∈ e.hdofs)) from rfl,
      ih _ _ hnd' hA', pMultTStep_fst e hnde x y0 proc l]
    have hblock : ∑ g ∈ e.hdofs.toFinset,
        (if proc g then 0 else x g) * rowOf e g l
        = ∑ g ∈ Finset.univ,
            (if proc g = false ∧ g ∈ e.hdofs then A g l * x g else 0) := by
      rw [show e.hdofs.toFinset = Finset.univ.filter (fun g => g ∈ e.hdofs) from
        Finset.ext fun g => by simp, Finset.sum_filter]
      refine Finset.sum_congr rfl fun g _ => ?_
      by_cases hm : g ∈ e.hdofs
      · by_cases hpg : proc g
        · simp [hm, hpg]
        · have hr : rowOf e g l = A g l := by rw [hAe g hm]
          simp [hm, hpg, hr, mul_comm]
      · simp [hm]
    rw [hblock, add_assoc]
    congr 1
    rw [Finset.sum_filter, Finset.sum_filter, ← Finset.sum_add_distrib]
    refine Finset.sum_congr rfl fun g _ => ?_
    by_cases hpg : proc g
    · simp [hpg]
    · by_cases hm : g ∈ e.hdofs
      · simp [hpg, hm]
      · by_cases ht : ∃ e' ∈ es, g ∈ e'.hdofs
        · simp [hpg, hm, ht]
        · simp [hpg, hm, ht]

/-- The `Mult` fold: the value at a DOF comes from the last visited element
containing it (each `SetSubVector` visit overwrites), hence equals `A g ⋅ x`
whenever `A` matches every element block; untouched DOFs keep the prior
content of `y`. -/
lemma pMult_fold {L H : ℕ} (es : List (TElem L H)) (A : Fin H → Fin L → ℚ)
    (x : Fin L → ℚ) (y0 : Fin H → ℚ) (g : Fin H) :
    (∀ e ∈ es, e.hdofs.Nodup) →
    (∀ e ∈ es, ∀ g' ∈ e.hdofs, rowOf e g' = A g') →
    pMult es x y0 g
      = if (∃ e ∈ es, g ∈ e.hdofs) then ∑ l, A g l * x l else y0 g := by
  induction es using List.reverseRecOn generalizing y0 with
  | nil => intro _ _; simp [pMult]
  | append_singleton es e ih =>
    intro hnd hA
    have hme : e ∈ es ++ [e] :=
      List.mem_append_right es (List.mem_singleton.mpr rfl)
    have hnd' : ∀ e' ∈ es, e'.hdofs.Nodup := fun e' he' =>
      hnd e' (List.mem_append_left [e] he')
    have hA' : ∀ e' ∈ es, ∀ g' ∈ e'.hdofs, rowOf e' g' = A g' := fun e' he' =>
      hA e' (List.mem_append_left [e] he')
    unfold pMult
    rw [List.foldl_append]
    show pMultStep x (pMult es x y0) e g = _
    unfold pMultStep
    by_cases hmem : g ∈ e.hdofs
    · have hpos : e.hdofs[posOf e.hdofs g]? = some g := posOf_getElem hmem
      rw [setSub_mem (hnd e hme) hpos, locMult_eq_rowSum,
        if_pos ⟨e, hme, hmem⟩]
      refine Finset.sum_congr rfl fun l _ => ?_
      have hr : rowAt e (posOf e.hdofs g) l = A g l := by
        rw [← hA e hme g hmem]; rfl
      rw [hr]
    · rw [setSub_not_mem hmem, ih y0 hnd' hA']
      have hiff : (∃ e' ∈ es, g ∈ e'.hdofs)
          ↔ (∃ e' ∈ es ++ [e], g ∈ e'.hdofs) := by
        constructor
        · rintro ⟨e', he', hm⟩
          exact ⟨e', List.mem_append_left [e] he', hm⟩
        · rintro ⟨e', he', hm⟩
          rcases List.mem_append.mp he' with h | h
          · exact ⟨e', h, hm⟩
          · rw [List.mem_singleton.mp h] at hm
            exact absurd hm hmem
      by_cases hex : ∃ e' ∈ es, g ∈ e'.hdofs
      · rw [if_pos hex, if_pos (hiff.mp hex)]
      · rw [if_neg hex, if_neg (fun h => hex (hiff.mpr h))]

/-- C3: when every element has duplicate-free DOF lists and the per-element
blocks are the blocks of one global dense transfer matrix `A` (the matrix
whose blocks `Mult` applies — in particular any DOF shared between elements
gets the same global row from each element containing it), the
processed-marker accumulation of `MultTranspose` takes each shared DOF's
contribution exactly once, so the result equals the transpose action of `A`,
while `Mult` computes the forward action of `A`. -/
theorem pRefinement_multTranspose_is_dense_transpose {L H : ℕ}
    (es : List (TElem L H)) (A : Fin H → Fin L → ℚ)
    (hnd : ∀ e ∈ es, e.hdofs.Nodup)
    (hA : ∀ e ∈ es, ∀ g ∈ e.hdofs, rowOf e g = A g)
    (hcover : ∀ g : Fin H, ∃ e ∈ es, g ∈ e.hdofs) :
    (∀ (x : Fin L → ℚ) (y0 : Fin H → ℚ) (g : Fin H),
        pMult es x y0 g = ∑ l, A g l * x l)
    ∧ (∀ (x : Fin H → ℚ) (l : Fin L),
        pMultTranspose es x l = ∑ g, A g l * x g) := by
  constructor
  · intro x y0 g
    rw [pMult_fold es A x y0 g hnd hA, if_pos (hcover g)]
  · intro x l
    unfold pMultTranspose
    rw [pMultT_fold_fst es A x (fun _ => 0) (fun _ => false) l hnd hA]
    rw [show Finset.univ.filter
          (fun g : Fin H => false = false ∧ (∃ e ∈ es, g ∈ e.hdofs))
        = Finset.univ from Finset.ext fun g => by simp [hcover g]]
    simp

/-- A concrete two-element mesh for the C3 witness: high-order DOF `1` is
shared by both elements. -/
def wElem1 : TElem 2 3 :=
  { hdofs := [0, 1], ldofs := [0, 1],
    locProl := fun p q => if p = q then 1 else 0 }

/-- The second element of the witness mesh; its local block produces for the
shared DOF `1` the same global row as `wElem1`. -/
def wElem2 : TElem 2 3 :=
  { hdofs := [1, 2], ldofs := [1, 0],
    locProl := fun p q => if p = q then 1 else 0 }

/-- The global dense transfer matrix of the witness mesh. -/
def wDense : Fin 3 → Fin 2 → ℚ :=
  fun g l =>
    if (g : ℕ) = 1 then (if (l : ℕ) = 1 then 1 else 0)
    else (if (l : ℕ) = 0 then 1 else 0)

/-- Witness for C3: on the concrete shared-DOF mesh, `MultTranspose` of the
all-ones vector equals the transpose action of the dense matrix. -/
theorem pRefinement_multTranspose_witness :
    pMultTranspose [wElem1, wElem2] (fun _ => 1) 0
      = ∑ g : Fin 3, wDense g 0 * 1 := by
  have hA : ∀ e ∈ [wElem1, wElem2], ∀ g ∈ e.hdofs, rowOf e g = wDense g := by
    intro e he g hg
    funext l
    rcases List.mem_cons.mp he with rfl | he2
    · simp only [wElem1] at hg
      fin_cases hg <;> fin_cases l <;>
        norm_num [rowOf, rowAt, posOf, wElem1, wDense, Finset.sum_range_succ]
    · rcases List.mem_cons.mp he2 with rfl | he3
      · simp only [wElem2] at hg
        fin_cases hg <;> fin_cases l <;>
          norm_num [rowOf, rowAt, posOf, wElem2, wDense, Finset.sum_range_succ] <;>
          decide
      · cases he3
  exact (pRefinement_multTranspose_is_dense_transpose [wElem1, wElem2] wDense
    (by decide) hA (by decide)).2 (fun _ => 1) 0

/-! ## TensorProductPRefinementTransferOperator (transfer.cpp:1346-1669)

The tensor-product data of a 2-D scalar space pair: the 1-D basis evaluation
matrix `B` from `GetDofToQuad(..., TENSOR)`, the lexicographic
element-to-global DOF maps realised by the `LEXICOGRAPHIC` element
restrictions (modelled from the spec's external-interface description of the
DOF-index mapping), and the boolean mask produced by
`ElementRestriction::BooleanMask` (one slot per true fine-space DOF keeps
weight 1, superfluous slots are zeroed). -/

/-- Data of `TensorProductPRefinementTransferOperator` in 2-D. -/
structure TP2D (L H : ℕ) where
  NE : ℕ
  D1D : ℕ
  Q1D : ℕ
  B : ℕ → ℕ → ℚ
  lmap : ℕ → ℕ → ℕ → Fin L
  hmap : ℕ → ℕ → ℕ → Fin H
  mask : ℕ → ℕ → ℕ → ℚ

/-- Modelled from the spec: `elem_restrict_lex_l->Mult(x, localL)` — the
E-vector gather `localL(dx, dy, e) = x[lmap(e, dx, dy)]`. -/
def tpLocalL {L H : ℕ} (t : TP2D L H) (x : Fin L → ℚ) (e dx dy : ℕ) : ℚ :=
  x (t.lmap e dx dy)

/-- `TransferKernels::Prolongation2D` (transfer.cpp:1418-1463): per element,
`y(qx,qy) = Σ_dy B(qy,dy) Σ_dx B(qx,dx) localL(dx,dy)`, then multiplied by
the boolean mask. -/
def prolongation2D {L H : ℕ} (t : TP2D L H) (localL : ℕ → ℕ → ℕ → ℚ)
    (e qx qy : ℕ) : ℚ :=
  t.mask e qx qy *
    ∑ dy ∈ Finset.range t.D1D, t.B qy dy *
      ∑ dx ∈ Finset.range t.D1D, t.B qx dx * localL e dx dy

/-- `TensorProductPRefinementTransferOperator::Mult` in 2-D
(transfer.cpp:1645-1669): early return on an empty mesh, gather, kernel,
then `elem_restrict_lex_h->MultTranspose(localH, y)` (modelled from the
spec: the scatter-sum over all element slots mapping to each global DOF). -/
def tpMult2D {L H : ℕ} (t : TP2D L H) (x : Fin L → ℚ) (y0 : Fin H → ℚ) :
    Fin H → ℚ :=
  fun g =>
    if t.NE = 0 then y0 g
    else
      ∑ e ∈ Finset.range t.NE, ∑ qy ∈ Finset.range t.Q1D,
        ∑ qx ∈ Finset.range t.Q1D,
          if t.hmap e qx qy = g then prolongation2D t (tpLocalL t x) e qx qy
          else 0

/-- Modelled from the spec (§4.7): for collocated tensor-product bases the
dense per-element transfer matrix of the general p-refinement path factors
into the 1-D matrices `B` applied dimension-by-dimension; this is that dense
element, with slots in lexicographic order (`qx` fastest). -/
def elemOfTP2D {L H : ℕ} (t : TP2D L H) (e : ℕ) : TElem L H :=
  { hdofs := (List.range (t.Q1D * t.Q1D)).map
      (fun p => t.hmap e (p % t.Q1D) (p / t.Q1D))
    ldofs := (List.range (t.D1D * t.D1D)).map
      (fun q => t.lmap e (q % t.D1D) (q / t.D1D))
    locProl := fun p q =>
      t.B (p % t.Q1D) (q % t.D1D) * t.B (p / t.Q1D) (q / t.D1D) }

/-- The element list handed to the dense `PRefinementTransferOperator` path. -/
def esOfTP2D {L H : ℕ} (t : TP2D L H) : List (TElem L H) :=
  (List.range t.NE).map (elemOfTP2D t)

/-- Splitting a sum over `range (m * n)` into an `n × m` double sum. -/
lemma sum_range_mul_split (f : ℕ → ℚ) (m n : ℕ) :
    ∑ q ∈ Finset.range (m * n), f q
      = ∑ j ∈ Finset.range n, ∑ i ∈ Finset.range m, f (i + m * j) := by
  induction n with
  | zero => simp
  | succ n ih =>
    rw [Nat.mul_succ, Finset.sum_range_add, ih, Finset.sum_range_succ]
    congr 1
    refine Finset.sum_congr rfl fun i _ => ?_
    congr 1
    ring

lemma lex_lt_sq {a b n : ℕ} (ha : a < n) (hb : b < n) : a + n * b < n * n := by
  calc a + n * b < n + n * b := Nat.add_lt_add_right ha _
  _ = n * (b + 1) := by ring
  _ ≤ n * n := Nat.mul_le_mul_left n hb

lemma lex_mod {a b n : ℕ} (ha : a < n) : (a + n * b) % n = a := by
  rw [Nat.add_mul_mod_self_left, Nat.mod_eq_of_lt ha]

lemma lex_div {a b n : ℕ} (ha : a < n) : (a + n * b) / n = b := by
  rw [Nat.add_mul_div_left _ _ (Nat.pos_of_ne_zero (by omega)),
    Nat.div_eq_of_lt ha, Nat.zero_add]

/-- The unmasked 2-D kernel value of a slot equals the corresponding row of
the factored dense element applied to the gathered input. -/
lemma kernel2D_eq_locMult {L H : ℕ} (t : TP2D L H) (x : Fin L → ℚ)
    {e qx qy : ℕ} (hqx : qx < t.Q1D) (_hqy : qy < t.Q1D) :
    (∑ dy ∈ Finset.range t.D1D, t.B qy dy *
        ∑ dx ∈ Finset.range t.D1D, t.B qx dx * tpLocalL t x e dx dy)
      = locMult (elemOfTP2D t e) x (qx + t.Q1D * qy) := by
  unfold locMult
  have hlen : (elemOfTP2D t e).ldofs.length = t.D1D * t.D1D := by
    simp [elemOfTP2D]
  rw [hlen, sum_range_mul_split _ t.D1D t.D1D]
  refine Finset.sum_congr rfl fun dy hdy => ?_
  rw [Finset.mul_sum]
  refine Finset.sum_congr rfl fun dx hdx => ?_
  have hdx' := Finset.mem_range.mp hdx
  have hdy' := Finset.mem_range.mp hdy
  have hq : dx + t.D1D * dy < t.D1D * t.D1D := lex_lt_sq hdx' hdy'
  have hget : (elemOfTP2D t e).ldofs[dx + t.D1D * dy]?
      = some (t.lmap e dx dy) := by
    simp only [elemOfTP2D, List.getElem?_map, List.getElem?_range hq,
      Option.map_some']
    rw [lex_mod hdx', lex_div hdx']
  have hprol : (elemOfTP2D t e).locProl (qx + t.Q1D * qy) (dx + t.D1D * dy)
      = t.B qx dx * t.B qy dy := by
    simp only [elemOfTP2D]
    rw [lex_mod hqx, lex_div hqx, lex_mod hdx', lex_div hdx']
  rw [hprol]
  unfold gatherL
  rw [hget]
  unfold tpLocalL
  ring

/-- A slot of the high-order E-vector corresponds to a DOF of the factored
dense element. -/
lemma hmap_mem_hdofs {L H : ℕ} (t : TP2D L H) {e qx qy : ℕ}
    (hqx : qx < t.Q1D) (hqy : qy < t.Q1D) :
    t.hmap e qx qy ∈ (elemOfTP2D t e).hdofs := by
  have hp : qx + t.Q1D * qy < t.Q1D * t.Q1D := lex_lt_sq hqx hqy
  have : (elemOfTP2D t e).hdofs[qx + t.Q1D * qy]? = some (t.hmap e qx qy) := by
    simp only [elemOfTP2D, List.getElem?_map, List.getElem?_range hp,
      Option.map_some']
    rw [lex_mod hqx, lex_div hqx]
  rcases List.getElem?_eq_some_iff.mp this with ⟨hlt, hget⟩
  exact hget ▸ List.getElem_mem hlt

/-- The masked slot value for a DOF `g` equals the mask weight times
`A g ⋅ x` whenever the dense element rows match `A`. -/
lemma slot_value_2D {L H : ℕ} (t : TP2D L H) (A : Fin H → Fin L → ℚ)
    (x : Fin L → ℚ) {e qx qy : ℕ} {g : Fin H}
    (hqx : qx < t.Q1D) (hqy : qy < t.Q1D)
    (hnd : (elemOfTP2D t e).hdofs.Nodup)
    (hrow : rowOf (elemOfTP2D t e) g = A g)
    (hg : t.hmap e qx qy = g) :
    prolongation2D t (tpLocalL t x) e qx qy
      = t.mask e qx qy * ∑ l, A g l * x l := by
  unfold prolongation2D
  rw [kernel2D_eq_locMult t x hqx hqy, locMult_eq_rowSum]
  congr 1
  have hp : qx + t.Q1D * qy < t.Q1D * t.Q1D := lex_lt_sq hqx hqy
  have hget : (elemOfTP2D t e).hdofs[qx + t.Q1D * qy]? = some g := by
    simp only [elemOfTP2D, List.getElem?_map, List.getElem?_range hp,
      Option.map_some']
    rw [lex_mod hqx, lex_div hqx, hg]
  have hpos : posOf (elemOfTP2D t e).hdofs g = qx + t.Q1D * qy :=
    posOf_eq hnd hget
  refine Finset.sum_congr rfl fun l _ => ?_
  have : rowAt (elemOfTP2D t e) (qx + t.Q1D * qy) l = A g l := by
    rw [← hrow]
    unfold rowOf
    rw [hpos]
  rw [this]

/-- The 2-D half of C6: on a non-degenerate tensor-product setup (each
element's slots hit distinct global DOFs, the factored dense element blocks
agree with one global matrix `A`, and the boolean mask selects each true
fine DOF exactly once across all slots), the sum-factorized `Mult` pipeline
agrees with the dense per-element `PRefinementTransferOperator::Mult` for
every input and any prior output contents. -/
lemma tp2D_matches_dense {L H : ℕ} (t : TP2D L H) (A : Fin H → Fin L → ℚ)
    (hinj : ∀ e < t.NE, (elemOfTP2D t e).hdofs.Nodup)
    (hA : ∀ el ∈ esOfTP2D t, ∀ g ∈ el.hdofs, rowOf el g = A g)
    (hmask : ∀ g : Fin H,
      (∑ e ∈ Finset.range t.NE, ∑ qy ∈ Finset.range t.Q1D,
        ∑ qx ∈ Finset.range t.Q1D,
          if t.hmap e qx qy = g then t.mask e qx qy else 0) = 1)
    (x : Fin L → ℚ) (y0 y0' : Fin H → ℚ) (g : Fin H) :
    tpMult2D t x y0 g = pMult (esOfTP2D t) x y0' g := by
  have hNE : t.NE ≠ 0 := by
    intro h
    have := hmask g
    rw [h] at this
    simp at this
  have hnd : ∀ el ∈ esOfTP2D t, el.hdofs.Nodup := by
    intro el hel
    rcases List.mem_map.mp hel with ⟨e, he, rfl⟩
    exact hinj e (List.mem_range.mp he)
  have hcover : ∃ el ∈ esOfTP2D t, g ∈ el.hdofs := by
    by_contra hc
    push_neg at hc
    have hzero : (∑ e ∈ Finset.range t.NE, ∑ qy ∈ Finset.range t.Q1D,
        ∑ qx ∈ Finset.range t.Q1D,
          if t.hmap e qx qy = g then t.mask e qx qy else 0) = 0 := by
      refine Finset.sum_eq_zero fun e he => ?_
      refine Finset.sum_eq_zero fun qy hqy => ?_
      refine Finset.sum_eq_zero fun qx hqx => ?_
      rw [if_neg]
      intro hg
      have hmem : g ∈ (elemOfTP2D t e).hdofs :=
        hg ▸ hmap_mem_hdofs t (Finset.mem_range.mp hqx) (Finset.mem_range.mp hqy)
      exact hc (elemOfTP2D t e)
        (List.mem_map.mpr ⟨e, List.mem_range.mpr (Finset.mem_range.mp he), rfl⟩)
        hmem
    have h1 := hmask g
    rw [hzero] at h1
    exact absurd h1 (by norm_num)
  rw [pMult_fold (esOfTP2D t) A x y0' g hnd hA, if_pos hcover]
  unfold tpMult2D
  rw [if_neg hNE]
  have hterm : ∀ e ∈ Finset.range t.NE, ∀ qy ∈ Finset.range t.Q1D,
      ∀ qx ∈ Finset.range t.Q1D,
      (if t.hmap e qx qy = g then prolongation2D t (tpLocalL t x) e qx qy
       else 0)
        = (∑ l, A g l * x l)
            * (if t.hmap e qx qy = g then t.mask e qx qy else 0) := by
    intro e he qy hqy qx hqx
    by_cases hg : t.hmap e qx qy = g
    · rw [if_pos hg, if_pos hg,
        slot_value_2D t A x (Finset.mem_range.mp hqx) (Finset.mem_range.mp hqy)
          (hinj e (Finset.mem_range.mp he))
          (hA (elemOfTP2D t e)
            (List.mem_map.mpr
              ⟨e, List.mem_range.mpr (Finset.mem_range.mp he), rfl⟩)
            g (hg ▸ hmap_mem_hdofs t (Finset.mem_range.mp hqx)
                (Finset.mem_range.mp hqy)))
          hg]
      ring
    · rw [if_neg hg, if_neg hg, mul_zero]
  calc
    (∑ e ∈ Finset.range t.NE, ∑ qy ∈ Finset.range t.Q1D,
        ∑ qx ∈ Finset.range t.Q1D,
          if t.hmap e qx qy = g then prolongation2D t (tpLocalL t x) e qx qy
          else 0)
      = ∑ e ∈ Finset.range t.NE, ∑ qy ∈ Finset.range t.Q1D,
          ∑ qx ∈ Finset.range t.Q1D,
            (∑ l, A g l * x l)
              * (if t.hmap e qx qy = g then t.mask e qx qy else 0) := by
        refine Finset.sum_congr rfl fun e he => ?_
        refine Finset.sum_congr rfl fun qy hqy => ?_
        exact Finset.sum_congr rfl fun qx hqx => hterm e he qy hqy qx hqx
    _ = (∑ l, A g l * x l)
          * ∑ e ∈ Finset.range t.NE, ∑ qy ∈ Finset.range t.Q1D,
              ∑ qx ∈ Finset.range t.Q1D,
                (if t.hmap e qx qy = g then t.mask e qx qy else 0) := by
        simp [Finset.mul_sum]
    _ = ∑ l, A g l * x l := by rw [hmask g, mul_one]

lemma lex_lt {a b n m : ℕ} (ha : a < n) (hb : b < m) : a + n * b < n * m := by
  calc a + n * b < n + n * b := Nat.add_lt_add_right ha _
  _ = n * (b + 1) := by ring
  _ ≤ n * m := Nat.mul_le_mul_left n hb

/-- Data of `TensorProductPRefinementTransferOperator` in 3-D. -/
structure TP3D (L H : ℕ) where
  NE : ℕ
  D1D : ℕ
  Q1D : ℕ
  B : ℕ → ℕ → ℚ
  lmap : ℕ → ℕ → ℕ → ℕ → Fin L
  hmap : ℕ → ℕ → ℕ → ℕ → Fin H
  mask : ℕ → ℕ → ℕ → ℕ → ℚ

/-- Modelled from the spec: the 3-D E-vector gather
`localL(dx, dy, dz, e) = x[lmap(e, dx, dy, dz)]`. -/
def tpLocalL3 {L H : ℕ} (t : TP3D L H) (x : Fin L → ℚ) (e dx dy dz : ℕ) : ℚ :=
  x (t.lmap e dx dy dz)

/-- `TransferKernels::Prolongation3D` (transfer.cpp:1465-1535): per element,
`y(qx,qy,qz) = Σ_dz B(qz,dz) Σ_dy B(qy,dy) Σ_dx B(qx,dx) localL(dx,dy,dz)`,
then multiplied by the boolean mask. -/
def prolongation3D {L H : ℕ} (t : TP3D L H) (localL : ℕ → ℕ → ℕ → ℕ → ℚ)
    (e qx qy qz : ℕ) : ℚ :=
  t.mask e qx qy qz *
    ∑ dz ∈ Finset.range t.D1D, t.B qz dz *
      ∑ dy ∈ Finset.range t.D1D, t.B qy dy *
        ∑ dx ∈ Finset.range t.D1D, t.B qx dx * localL e dx dy dz

/-- `TensorProductPRefinementTransferOperator::Mult` in 3-D
(transfer.cpp:1645-1669), with the gather/scatter of the lexicographic
element restrictions modelled as in 2-D. -/
def tpMult3D {L H : ℕ} (t : TP3D L H) (x : Fin L → ℚ) (y0 : Fin H → ℚ) :
    Fin H → ℚ :=
  fun g =>
    if t.NE = 0 then y0 g
    else
      ∑ e ∈ Finset.range t.NE, ∑ qz ∈ Finset.range t.Q1D,
        ∑ qy ∈ Finset.range t.Q1D, ∑ qx ∈ Finset.range t.Q1D,
          if t.hmap e qx qy qz = g then
            prolongation3D t (tpLocalL3 t x) e qx qy qz
          else 0

/-- Modelled from the spec (§4.7): the factored dense 3-D element, with slots
in lexicographic order (`qx` fastest, then `qy`, then `qz`). -/
def elemOfTP3D {L H : ℕ} (t : TP3D L H) (e : ℕ) : TElem L H :=
  { hdofs := (List.range (t.Q1D * (t.Q1D * t.Q1D))).map
      (fun p => t.hmap e (p % t.Q1D) (p / t.Q1D % t.Q1D) (p / t.Q1D / t.Q1D))
    ldofs := (List.range (t.D1D * (t.D1D * t.D1D))).map
      (fun q => t.lmap e (q % t.D1D) (q / t.D1D % t.D1D) (q / t.D1D / t.D1D))
    locProl := fun p q =>
      t.B (p % t.Q1D) (q % t.D1D) * t.B (p / t.Q1D % t.Q1D) (q / t.D1D % t.D1D)
        * t.B (p / t.Q1D / t.Q1D) (q / t.D1D / t.D1D) }

/-- The 3-D element list handed to the dense path. -/
def esOfTP3D {L H : ℕ} (t : TP3D L H) : List (TElem L H) :=
  (List.range t.NE).map (elemOfTP3D t)

/-- The unmasked 3-D kernel value of a slot equals the corresponding row of
the factored dense element applied to the gathered input. -/
lemma kernel3D_eq_locMult {L H : ℕ} (t : TP3D L H) (x : Fin L → ℚ)
    {e qx qy qz : ℕ} (hqx : qx < t.Q1D) (hqy : qy < t.Q1D) :
    (∑ dz ∈ Finset.range t.D1D, t.B qz dz *
        ∑ dy ∈ Finset.range t.D1D, t.B qy dy *
          ∑ dx ∈ Finset.range t.D1D, t.B qx dx * tpLocalL3 t x e dx dy dz)
      = locMult (elemOfTP3D t e) x (qx + t.Q1D * (qy + t.Q1D * qz)) := by
  unfold locMult
  have hlen : (elemOfTP3D t e).ldofs.length = t.D1D * (t.D1D * t.D1D) := by
    simp [elemOfTP3D]
  rw [hlen, sum_range_mul_split _ t.D1D (t.D1D * t.D1D),
    sum_range_mul_split _ t.D1D t.D1D]
  refine Finset.sum_congr rfl fun dz hdz => ?_
  rw [Finset.mul_sum]
  refine Finset.sum_congr rfl fun dy hdy => ?_
  rw [Finset.mul_sum, Finset.mul_sum]
  refine Finset.sum_congr rfl fun dx hdx => ?_
  have hdx' := Finset.mem_range.mp hdx
  have hdy' := Finset.mem_range.mp hdy
  have hdz' := Finset.mem_range.mp hdz
  have hq : dx + t.D1D * (dy + t.D1D * dz) < t.D1D * (t.D1D * t.D1D) :=
    lex_lt hdx' (lex_lt hdy' hdz')
  have hget : (elemOfTP3D t e).ldofs[dx + t.D1D * (dy + t.D1D * dz)]?
      = some (t.lmap e dx dy dz) := by
    simp only [elemOfTP3D, List.getElem?_map, List.getElem?_range hq,
      Option.map_some']
    rw [lex_mod hdx', lex_div hdx', lex_mod hdy', lex_div hdy']
  have hprol : (elemOfTP3D t e).locProl (qx + t.Q1D * (qy + t.Q1D * qz))
      (dx + t.D1D * (dy + t.D1D * dz))
      = t.B qx dx * t.B qy dy * t.B qz dz := by
    simp only [elemOfTP3D]
    rw [lex_mod hqx, lex_div hqx, lex_mod hqy, lex_div hqy,
      lex_mod hdx', lex_div hdx', lex_mod hdy', lex_div hdy']
  rw [hprol]
  unfold gatherL
  rw [hget]
  unfold tpLocalL3
  ring

/-- A slot of the 3-D high-order E-vector corresponds to a DOF of the
factored dense element. -/
lemma hmap_mem_hdofs3 {L H : ℕ} (t : TP3D L H) {e qx qy qz : ℕ}
    (hqx : qx < t.Q1D) (hqy : qy < t.Q1D) (hqz : qz < t.Q1D) :
    t.hmap e qx qy qz ∈ (elemOfTP3D t e).hdofs := by
  have hp : qx + t.Q1D * (qy + t.Q1D * qz) < t.Q1D * (t.Q1D * t.Q1D) :=
    lex_lt hqx (lex_lt hqy hqz)
  have : (elemOfTP3D t e).hdofs[qx + t.Q1D * (qy + t.Q1D * qz)]?
      = some (t.hmap e qx qy qz) := by
    simp only [elemOfTP3D, List.getElem?_map, List.getElem?_range hp,
      Option.map_some']
    rw [lex_mod hqx, lex_div hqx, lex_mod hqy, lex_div hqy]
  rcases List.getElem?_eq_some_iff.mp this with ⟨hlt, hget⟩
  exact hget ▸ List.getElem_mem hlt

/-- The masked 3-D slot value for a DOF `g` equals the mask weight times
`A g ⋅ x` whenever the dense element rows match `A`. -/
lemma slot_value_3D {L H : ℕ} (t : TP3D L H) (A : Fin H → Fin L → ℚ)
    (x : Fin L → ℚ) {e qx qy qz : ℕ} {g : Fin H}
    (hqx : qx < t.Q1D) (hqy : qy < t.Q1D) (hqz : qz < t.Q1D)
    (hnd : (elemOfTP3D t e).hdofs.Nodup)
    (hrow : rowOf (elemOfTP3D t e) g = A g)
    (hg : t.hmap e qx qy qz = g) :
    prolongation3D t (tpLocalL3 t x) e qx qy qz
      = t.mask e qx qy qz * ∑ l, A g l * x l := by
  unfold prolongation3D
  rw [kernel3D_eq_locMult t x hqx hqy, locMult_eq_rowSum]
  congr 1
  have hp : qx + t.Q1D * (qy + t.Q1D * qz) < t.Q1D * (t.Q1D * t.Q1D) :=
    lex_lt hqx (lex_lt hqy hqz)
  have hget : (elemOfTP3D t e).hdofs[qx + t.Q1D * (qy + t.Q1D * qz)]?
      = some g := by
    simp only [elemOfTP3D, List.getElem?_map, List.getElem?_range hp,
      Option.map_some']
    rw [lex_mod hqx, lex_div hqx, lex_mod hqy, lex_div hqy, hg]
  have hpos : posOf (elemOfTP3D t e).hdofs g
      = qx + t.Q1D * (qy + t.Q1D * qz) := posOf_eq hnd hget
  refine Finset.sum_congr rfl fun l _ => ?_
  have hAl : rowAt (elemOfTP3D t e) (qx + t.Q1D * (qy + t.Q1D * qz)) l
      = A g l := by
    rw [← hrow]
    unfold rowOf
    rw [hpos]
  rw [hAl]

/-- The 3-D half of C6, under the same hypotheses as the 2-D half. -/
lemma tp3D_matches_dense {L H : ℕ} (t : TP3D L H) (A : Fin H → Fin L → ℚ)
    (hinj : ∀ e < t.NE, (elemOfTP3D t e).hdofs.Nodup)
    (hA : ∀ el ∈ esOfTP3D t, ∀ g ∈ el.hdofs, rowOf el g = A g)
    (hmask : ∀ g : Fin H,
      (∑ e ∈ Finset.range t.NE, ∑ qz ∈ Finset.range t.Q1D,
        ∑ qy ∈ Finset.range t.Q1D, ∑ qx ∈ Finset.range t.Q1D,
          if t.hmap e qx qy qz = g then t.mask e qx qy qz else 0) = 1)
    (x : Fin L → ℚ) (y0 y0' : Fin H → ℚ) (g : Fin H) :
    tpMult3D t x y0 g = pMult (esOfTP3D t) x y0' g := by
  have hNE : t.NE ≠ 0 := by
    intro h
    have := hmask g
    rw [h] at this
    simp at this
  have hnd : ∀ el ∈ esOfTP3D t, el.hdofs.Nodup := by
    intro el hel
    rcases List.mem_map.mp hel with ⟨e, he, rfl⟩
    exact hinj e (List.mem_range.mp he)
  have hcover : ∃ el ∈ esOfTP3D t, g ∈ el.hdofs := by
    by_contra hc
    push_neg at hc
    have hzero : (∑ e ∈ Finset.range t.NE, ∑ qz ∈ Finset.range t.Q1D,
        ∑ qy ∈ Finset.range t.Q1D, ∑ qx ∈ Finset.range t.Q1D,
          if t.hmap e qx qy qz = g then t.mask e qx qy qz else 0) = 0 := by
      refine Finset.sum_eq_zero fun e he => ?_
      refine Finset.sum_eq_zero fun qz hqz => ?_
      refine Finset.sum_eq_zero fun qy hqy => ?_
      refine Finset.sum_eq_zero fun qx hqx => ?_
      rw [if_neg]
      intro hg
      have hmem : g ∈ (elemOfTP3D t e).hdofs :=
        hg ▸ hmap_mem_hdofs3 t (Finset.mem_range.mp hqx)
          (Finset.mem_range.mp hqy) (Finset.mem_range.mp hqz)
      exact hc (elemOfTP3D t e)
        (List.mem_map.mpr ⟨e, List.mem_range.mpr (Finset.mem_range.mp he), rfl⟩)
        hmem
    have h1 := hmask g
    rw [hzero] at h1
    exact absurd h1 (by norm_num)
  rw [pMult_fold (esOfTP3D t) A x y0' g hnd hA, if_pos hcover]
  unfold tpMult3D
  rw [if_neg hNE]
  have hterm : ∀ e ∈ Finset.range t.NE, ∀ qz ∈ Finset.range t.Q1D,
      ∀ qy ∈ Finset.range t.Q1D, ∀ qx ∈ Finset.range t.Q1D,
      (if t.hmap e qx qy qz = g then
          prolongation3D t (tpLocalL3 t x) e qx qy qz
       else 0)
        = (∑ l, A g l * x l)
            * (if t.hmap e qx qy qz = g then t.mask e qx qy qz else 0) := by
    intro e he qz hqz qy hqy qx hqx
    by_cases hg : t.hmap e qx qy qz = g
    · rw [if_pos hg, if_pos hg,
        slot_value_3D t A x (Finset.mem_range.mp hqx) (Finset.mem_range.mp hqy)
          (Finset.mem_range.mp hqz) (hinj e (Finset.mem_range.mp he))
          (hA (elemOfTP3D t e)
            (List.mem_map.mpr
              ⟨e, List.mem_range.mpr (Finset.mem_range.mp he), rfl⟩)
            g (hg ▸ hmap_mem_hdofs3 t (Finset.mem_range.mp hqx)
                (Finset.mem_range.mp hqy) (Finset.mem_range.mp hqz)))
          hg]
      ring
    · rw [if_neg hg, if_neg hg, mul_zero]
  calc
    (∑ e ∈ Finset.range t.NE, ∑ qz ∈ Finset.range t.Q1D,
        ∑ qy ∈ Finset.range t.Q1D, ∑ qx ∈ Finset.range t.Q1D,
          if t.hmap e qx qy qz = g then
            prolongation3D t (tpLocalL3 t x) e qx qy qz
          else 0)
      = ∑ e ∈ Finset.range t.NE, ∑ qz ∈ Finset.range t.Q1D,
          ∑ qy ∈ Finset.range t.Q1D, ∑ qx ∈ Finset.range t.Q1D,
            (∑ l, A g l * x l)
              * (if t.hmap e qx qy qz = g then t.mask e qx qy qz else 0) := by
        refine Finset.sum_congr rfl fun e he => ?_
        refine Finset.sum_congr rfl fun qz hqz => ?_
        refine Finset.sum_congr rfl fun qy hqy => ?_
        exact Finset.sum_congr rfl fun qx hqx =>
          hterm e he qz hqz qy hqy qx hqx
    _ = (∑ l, A g l * x l)
          * ∑ e ∈ Finset.range t.NE, ∑ qz ∈ Finset.range t.Q1D,
              ∑ qy ∈ Finset.range t.Q1D, ∑ qx ∈ Finset.range t.Q1D,
                (if t.hmap e qx qy qz = g then t.mask e qx qy qz else 0) := by
        simp [Finset.mul_sum]
    _ = ∑ l, A g l * x l := by rw [hmask g, mul_one]

/-- C6: in both 2-D and 3-D, on a scalar tensor-product space pair where each
element's lexicographic slots hit distinct global DOFs, the factored dense
element blocks agree with a single global transfer matrix, and the boolean
mask keeps exactly one slot per true fine DOF, the sum-factorized
`TensorProductPRefinementTransferOperator::Mult` produces the same result as
the dense per-element `PRefinementTransferOperator::Mult` on the same input
vector. -/
theorem tensorProduct_mult_matches_dense :
    (∀ (L H : ℕ) (t : TP2D L H) (A : Fin H → Fin L → ℚ),
      (∀ e < t.NE, (elemOfTP2D t e).hdofs.Nodup) →
      (∀ el ∈ esOfTP2D t, ∀ g ∈ el.hdofs, rowOf el g = A g) →
      (∀ g : Fin H,
        (∑ e ∈ Finset.range t.NE, ∑ qy ∈ Finset.range t.Q1D,
          ∑ qx ∈ Finset.range t.Q1D,
            if t.hmap e qx qy = g then t.mask e qx qy else 0) = 1) →
      ∀ (x : Fin L → ℚ) (y0 y0' : Fin H → ℚ) (g : Fin H),
        tpMult2D t x y0 g = pMult (esOfTP2D t) x y0' g)
    ∧ (∀ (L H : ℕ) (t : TP3D L H) (A : Fin H → Fin L → ℚ),
      (∀ e < t.NE, (elemOfTP3D t e).hdofs.Nodup) →
      (∀ el ∈ esOfTP3D t, ∀ g ∈ el.hdofs, rowOf el g = A g) →
      (∀ g : Fin H,
        (∑ e ∈ Finset.range t.NE, ∑ qz ∈ Finset.range t.Q1D,
          ∑ qy ∈ Finset.range t.Q1D, ∑ qx ∈ Finset.range t.Q1D,
            if t.hmap e qx qy qz = g then t.mask e qx qy qz else 0) = 1) →
      ∀ (x : Fin L → ℚ) (y0 y0' : Fin H → ℚ) (g : Fin H),
        tpMult3D t x y0 g = pMult (esOfTP3D t) x y0' g) :=
  ⟨fun _ _ t A hinj hA hmask x y0 y0' g =>
tp2D_matches_dense t A hinj hA hmask x y0 y0' g,
   fun _ _ t A hinj hA hmask x y0 y0' g =>
tp3D_matches_dense t A hinj hA hmask x y0 y0' g⟩

/-- A one-element, one-point 2-D tensor-product setup for the C6 witness. -/
def wTP2 : TP2D 1 1 :=
  { NE := 1, D1D := 1, Q1D := 1, B := fun _ _ => 1,
    lmap := fun _ _ _ => 0, hmap := fun _ _ _ => 0, mask := fun _ _ _ => 1 }

/-- A one-element, one-point 3-D tensor-product setup for the C6 witness. -/
def wTP3 : TP3D 1 1 :=
  { NE := 1, D1D := 1, Q1D := 1, B := fun _ _ => 1,
    lmap := fun _ _ _ _ => 0, hmap := fun _ _ _ _ => 0,
    mask := fun _ _ _ _ => 1 }

/-- Witness for C6: the 2-D and 3-D pipelines agree with the dense path on
the concrete one-element setups. -/
theorem tensorProduct_mult_matches_dense_witness :
    tpMult2D wTP2 (fun _ => 1) (fun _ => 0) 0
        = pMult (esOfTP2D wTP2) (fun _ => 1) (fun _ => 0) 0
    ∧ tpMult3D wTP3 (fun _ => 1) (fun _ => 0) 0
        = pMult (esOfTP3D wTP3) (fun _ => 1) (fun _ => 0) 0 := by
  constructor
  · refine tensorProduct_mult_matches_dense.1 1 1 wTP2 (fun _ _ => 1)
      ?_ ?_ ?_ (fun _ => 1) (fun _ => 0) (fun _ => 0) 0
    · intro e _
      simp [elemOfTP2D, wTP2]
    · intro el hel g hg
      rcases List.mem_map.mp hel with ⟨e, _, rfl⟩
      funext l
      fin_cases g
      fin_cases l
      norm_num [rowOf, rowAt, posOf, elemOfTP2D, wTP2, gatherL,
        Finset.sum_range_one]
      decide
    · intro g
      fin_cases g
      norm_num [wTP2, Finset.sum_range_one]
  · refine tensorProduct_mult_matches_dense.2 1 1 wTP3 (fun _ _ => 1)
      ?_ ?_ ?_ (fun _ => 1) (fun _ => 0) (fun _ => 0) 0
    · intro e _
      simp [elemOfTP3D, wTP3]
    · intro el hel g hg
      rcases List.mem_map.mp hel with ⟨e, _, rfl⟩
      funext l
      fin_cases g
      fin_cases l
      norm_num [rowOf, rowAt, posOf, elemOfTP3D, wTP3, gatherL,
        Finset.sum_range_one]
      decide
    · intro g
      fin_cases g
      norm_num [wTP3, Finset.sum_range_one]

end MfemSpec
